import Mathlib

/-!
Verification of the dependency-resolution and build-orchestration engine of
`qmlify.py` (the QMLify build tool).  Each Python component used by the
claims is shallowly embedded as an executable Lean definition, translated
line by line from `src/qmlify.py`; theorems about those definitions settle
the claims.

Conventions used throughout:
* Python exceptions are modelled with `Except` / explicit result
  constructors; an exception raised before any mutation returns the input
  state unchanged.
* The unbounded recursion of `QMLify.check_dependency` is modelled with an
  explicit fuel parameter; `.fuelOut` for every fuel amount corresponds to a
  Python run that never returns (it dies with `RecursionError`, which is not
  a `DependencyCycle`).
* Filesystem facts (mtimes, existence) are oracle parameters.
-/

namespace Qmlify

/-! ## Dependency map (`QMLify.dependency_map`, src 87)

The Python dict from a filename to its ordered adjacency list is modelled as
an association list; `lookup` returns the value at the first matching key,
`insertEdge` is the body of `register_dependency` before the cycle check
(src 119-122): create an empty list for an absent key, then append. -/

abbrev DepMap := List (String × List String)

def lookup : DepMap → String → Option (List String)
  | [], _ => none
  | (k, v) :: rest, n => if k = n then some v else lookup rest n

/-- Adjacency list of `n`, empty when `n` is not a key. -/
def depsD (m : DepMap) (n : String) : List String :=
  (lookup m n).getD []

/-- Edge relation of the dependency map: `Step m a b` holds when `b` occurs
in `a`'s adjacency list. -/
def Step (m : DepMap) (a b : String) : Prop :=
  b ∈ depsD m a

/-- `dependency_map[filename].append(dependency)` with the
`if filename not in self.dependency_map` initialisation (src 119-122). -/
def insertEdge : DepMap → String → String → DepMap
  | [], f, t => [(f, [t])]
  | (k, v) :: rest, f, t =>
    if k = f then (k, v ++ [t]) :: rest else (k, v) :: insertEdge rest f t

/-- Result of one `check_dependency` call: normal return, a raised
`DependencyCycle` carrying its chain, or fuel exhaustion (the marker for a
Python recursion that never returns). -/
inductive CheckResult : Type where
  | ok : CheckResult
  | cycle : List String → CheckResult
  | fuelOut : CheckResult
deriving DecidableEq

/-- The `for dep in dependencies` loop of `check_dependency` (src 112-117):
raise on `dep == target`, otherwise recurse via `check`; a cycle raised by
the recursive call (and, in the model, fuel exhaustion) propagates out,
aborting the loop. -/
def checkDeps (check : String → List String → CheckResult) :
    List String → String → List String → CheckResult
  | [], _, _ => .ok
  | dep :: rest, target, chain =>
    if dep = target then .cycle (chain ++ [dep])
    else
      let r := check dep (chain ++ [dep])
      if r = .ok then checkDeps check rest target chain else r

/-- `QMLify.check_dependency(name, target, chain)` (src 104-117), with fuel
counting the recursion depth.  The `chain is None` initialisation is moved
to the caller (`register_dependency` passes `[target, name]`, src 109-110);
the early `name not in dependency_map` return makes that reordering
observationally identical. -/
def check_dependency : Nat → DepMap → String → String → List String → CheckResult
  | 0, _, _, _, _ => .fuelOut
  | fuel + 1, m, name, target, chain =>
    match lookup m name with
    | none => .ok
    | some deps =>
      checkDeps (fun d ch => check_dependency fuel m d target ch) deps target chain

/-- `QMLify.register_dependency(filename, dependency)` (src 119-124): append
the edge, then run the cycle check from `dependency` looking for `filename`,
with the initial chain `[target, name] = [filename, dependency]`. -/
def register_dependency (fuel : Nat) (m : DepMap) (filename dependency : String) :
    DepMap × CheckResult :=
  let m' := insertEdge m filename dependency
  (m', check_dependency fuel m' dependency filename [filename, dependency])

/-- `register_dependency` raises `DependencyCycle`: some recursion depth
suffices for the check to return a cycle. -/
def Raises (m : DepMap) (filename dependency : String) : Prop :=
  ∃ fuel c, (register_dependency fuel m filename dependency).2 = .cycle c

/-- The dependency map has no directed cycle. -/
def Acyclic (m : DepMap) : Prop :=
  ∀ a, ¬ Relation.TransGen (Step m) a a

/-! ### Unfolding lemmas -/

theorem checkDeps_nil (check : String → List String → CheckResult) (t : String)
    (ch : List String) : checkDeps check [] t ch = .ok := rfl

theorem checkDeps_cons (check : String → List String → CheckResult)
    (d : String) (rest : List String) (t : String) (ch : List String) :
    checkDeps check (d :: rest) t ch =
      if d = t then .cycle (ch ++ [d])
      else if check d (ch ++ [d]) = .ok then checkDeps check rest t ch
      else check d (ch ++ [d]) := rfl

theorem check_dependency_zero (m : DepMap) (n t : String) (ch : List String) :
    check_dependency 0 m n t ch = .fuelOut := rfl

theorem check_dependency_none {m : DepMap} {n : String} (k : Nat) (t : String)
    (ch : List String) (h : lookup m n = none) :
    check_dependency (k + 1) m n t ch = .ok := by
  rw [check_dependency, h]

theorem check_dependency_some {m : DepMap} {n : String} {deps : List String}
    (k : Nat) (t : String) (ch : List String) (h : lookup m n = some deps) :
    check_dependency (k + 1) m n t ch =
      checkDeps (fun d ch => check_dependency k m d t ch) deps t ch := by
  rw [check_dependency, h]

/-! ### Basic facts about `lookup` and `insertEdge` -/

theorem lookup_mem_keys {m : DepMap} {k : String} {v : List String}
    (h : lookup m k = some v) : k ∈ m.map Prod.fst := by
  induction m with
  | nil => simp [lookup] at h
  | cons p rest ih =>
    rw [lookup] at h
    by_cases hk : p.1 = k
    · simp [hk]
    · simp only [hk, if_false] at h
      simp [ih h]

theorem depsD_ne_nil_mem_keys {m : DepMap} {n d : String}
    (h : d ∈ depsD m n) : n ∈ m.map Prod.fst := by
  unfold depsD at h
  cases hl : lookup m n with
  | none => rw [hl] at h; simp at h
  | some v => exact lookup_mem_keys hl

theorem lookup_insertEdge_self (m : DepMap) (f t : String) :
    lookup (insertEdge m f t) f = some (depsD m f ++ [t]) := by
  induction m with
  | nil => simp [insertEdge, lookup, depsD]
  | cons p rest ih =>
    by_cases hk : p.1 = f
    · simp [insertEdge, hk, lookup, depsD]
    · simp [insertEdge, hk, lookup, ih, depsD]

theorem lookup_insertEdge_other (m : DepMap) (f t n : String) (hn : n ≠ f) :
    lookup (insertEdge m f t) n = lookup m n := by
  have hfn : f ≠ n := fun h => hn h.symm
  induction m with
  | nil => simp [insertEdge, lookup, hfn]
  | cons p rest ih =>
    rcases p with ⟨k, v⟩
    by_cases hk : k = f
    · subst hk
      simp [insertEdge, lookup, hfn]
    · simp [insertEdge, hk, lookup, ih]

theorem step_insertEdge_of_ne {m : DepMap} {f t a b : String} (ha : a ≠ f)
    (h : Step (insertEdge m f t) a b) : Step m a b := by
  unfold Step depsD at h ⊢
  rwa [lookup_insertEdge_other m f t a ha] at h

/-! ### Monotonicity of the fuelled check -/

theorem checkDeps_mono {c1 c2 : String → List String → CheckResult}
    (hc : ∀ d ch, c1 d ch ≠ .fuelOut → c2 d ch = c1 d ch) :
    ∀ deps t ch, checkDeps c1 deps t ch ≠ .fuelOut →
      checkDeps c2 deps t ch = checkDeps c1 deps t ch := by
  intro deps
  induction deps with
  | nil => intro t ch _; rfl
  | cons d rest ih =>
    intro t ch h
    rw [checkDeps_cons] at h ⊢
    rw [checkDeps_cons]
    by_cases hd : d = t
    · simp [hd]
    · simp only [hd, if_false] at h ⊢
      by_cases hr : c1 d (ch ++ [d]) = .ok
      · have h2 : c2 d (ch ++ [d]) = c1 d (ch ++ [d]) := hc d (ch ++ [d]) (by rw [hr]; intro hx; cases hx)
        rw [hr] at h
        simp only [hr, if_true] at h
        rw [h2, hr]
        simp only [if_true]
        exact ih t ch h
      · simp only [hr, if_false] at h
        have h2 : c2 d (ch ++ [d]) = c1 d (ch ++ [d]) := hc d (ch ++ [d]) h
        rw [h2]
        simp only [hr, if_false]

theorem check_mono : ∀ fuel fuel' : Nat, fuel ≤ fuel' →
    ∀ m n t ch, check_dependency fuel m n t ch ≠ .fuelOut →
      check_dependency fuel' m n t ch = check_dependency fuel m n t ch := by
  intro fuel
  induction fuel with
  | zero => intro fuel' _ m n t ch h; exact absurd rfl h
  | succ k ih =>
    intro fuel' hle m n t ch h
    obtain ⟨k', rfl⟩ : ∃ k', fuel' = k' + 1 :=
      ⟨fuel' - 1, (Nat.succ_pred_eq_of_pos (Nat.lt_of_lt_of_le (Nat.succ_pos k) hle)).symm⟩
    have hk : k ≤ k' := Nat.succ_le_succ_iff.mp hle
    cases hl : lookup m n with
    | none => rw [check_dependency_none k t ch hl, check_dependency_none k' t ch hl]
    | some deps =>
      rw [check_dependency_some k t ch hl] at h
      rw [check_dependency_some k t ch hl, check_dependency_some k' t ch hl]
      exact checkDeps_mono (fun d ch hne => ih k' hk m d t ch hne) deps t ch h

/-! ### Inversion lemmas for the dependency loop -/

theorem checkDeps_ok_inv (check : String → List String → CheckResult) :
    ∀ deps t ch, checkDeps check deps t ch = .ok →
      ∀ d ∈ deps, d ≠ t ∧ check d (ch ++ [d]) = .ok := by
  intro deps
  induction deps with
  | nil => intro t ch _ d hd; cases hd
  | cons x rest ih =>
    intro t ch h d hd
    rw [checkDeps_cons] at h
    by_cases hx : x = t
    · simp [hx] at h
    · simp only [hx, if_false] at h
      by_cases hr : check x (ch ++ [x]) = .ok
      · simp only [hr, if_true] at h
        rw [List.mem_cons] at hd
        rcases hd with hd | hd
        · subst hd; exact ⟨hx, hr⟩
        · exact ih t ch h d hd
      · simp only [hr, if_false] at h

theorem checkDeps_fuelOut_inv (check : String → List String → CheckResult) :
    ∀ deps t ch, checkDeps check deps t ch = .fuelOut →
      ∃ d ∈ deps, d ≠ t ∧ check d (ch ++ [d]) = .fuelOut := by
  intro deps
  induction deps with
  | nil => intro t ch h; cases h
  | cons x rest ih =>
    intro t ch h
    rw [checkDeps_cons] at h
    by_cases hx : x = t
    · simp [hx] at h
    · simp only [hx, if_false] at h
      by_cases hr : check x (ch ++ [x]) = .ok
      · simp only [hr, if_true] at h
        obtain ⟨d, hd, hprop⟩ := ih t ch h
        exact ⟨d, List.mem_cons_of_mem x hd, hprop⟩
      · simp only [hr, if_false] at h
        exact ⟨x, List.mem_cons_self x rest, hx, h⟩

theorem checkDeps_cycle_inv (check : String → List String → CheckResult) :
    ∀ deps t ch c, checkDeps check deps t ch = .cycle c →
      ∃ d ∈ deps, (d = t ∧ c = ch ++ [d]) ∨ (d ≠ t ∧ check d (ch ++ [d]) = .cycle c) := by
  intro deps
  induction deps with
  | nil => intro t ch c h; cases h
  | cons x rest ih =>
    intro t ch c h
    rw [checkDeps_cons] at h
    by_cases hx : x = t
    · simp only [hx, if_true] at h
      cases h
      exact ⟨x, List.mem_cons_self x rest, Or.inl ⟨hx, by rw [hx]⟩⟩
    · simp only [hx, if_false] at h
      by_cases hr : check x (ch ++ [x]) = .ok
      · simp only [hr, if_true] at h
        obtain ⟨d, hd, hprop⟩ := ih t ch c h
        exact ⟨d, List.mem_cons_of_mem x hd, hprop⟩
      · simp only [hr, if_false] at h
        exact ⟨x, List.mem_cons_self x rest, Or.inr ⟨hx, h⟩⟩

/-! ### Soundness: a raised cycle exhibits a path and a well-formed chain -/

theorem check_sound : ∀ fuel m n t ch c,
    check_dependency fuel m n t ch = .cycle c →
      Relation.TransGen (Step m) n t ∧ ∃ l, c = ch ++ l ∧ l.getLast? = some t := by
  intro fuel
  induction fuel with
  | zero => intro m n t ch c h; cases h
  | succ k ih =>
    intro m n t ch c h
    cases hl : lookup m n with
    | none => rw [check_dependency_none k t ch hl] at h; cases h
    | some deps =>
      rw [check_dependency_some k t ch hl] at h
      have hmem : ∀ d ∈ deps, Step m n d := by
        intro d hd
        unfold Step depsD
        rw [hl]
        exact hd
      obtain ⟨d, hd, hcase⟩ := checkDeps_cycle_inv _ deps t ch c h
      rcases hcase with ⟨hdt, hc⟩ | ⟨hdt, hrec⟩
      · subst hdt
        exact ⟨Relation.TransGen.single (hmem d hd), [d], hc, rfl⟩
      · obtain ⟨htg, l, hc, hlast⟩ := ih m d t (ch ++ [d]) c hrec
        refine ⟨Relation.TransGen.head (hmem d hd) htg, d :: l, by simp [hc], ?_⟩
        cases l with
        | nil => cases hlast
        | cons x xs => rw [List.getLast?_cons_cons]; exact hlast

/-! ### Completeness: if the traversal terminates and a path to the target
exists, a cycle is raised -/

/-- A path in `m` from `n` to `t` whose intermediate nodes avoid `t` (any
reachability witness can be cut at its first arrival at `t`). -/
inductive PathTo (m : DepMap) (t : String) : String → Prop where
  | direct (n : String) : Step m n t → PathTo m t n
  | step (n d : String) : Step m n d → d ≠ t → PathTo m t d → PathTo m t n

theorem pathTo_of_transGen {m : DepMap} {t n : String}
    (h : Relation.TransGen (Step m) n t) : PathTo m t n := by
  induction h using Relation.TransGen.head_induction_on with
  | base h => exact PathTo.direct _ h
  | ih h' h ihp =>
    rename_i a c
    by_cases hc : c = t
    · subst hc
      exact PathTo.direct _ h'
    · exact PathTo.step _ _ h' hc ihp

theorem step_of_mem_depsD {m : DepMap} {n d : String} (h : d ∈ depsD m n) :
    Step m n d := h

theorem lookup_some_of_step {m : DepMap} {n d : String} (h : Step m n d) :
    ∃ deps, lookup m n = some deps ∧ d ∈ deps := by
  unfold Step depsD at h
  cases hl : lookup m n with
  | none => rw [hl] at h; simp at h
  | some deps => rw [hl] at h; exact ⟨deps, rfl, h⟩

theorem check_complete {m : DepMap} {t : String} : ∀ n, PathTo m t n →
    ∀ fuel ch, check_dependency fuel m n t ch ≠ .fuelOut →
      ∃ c, check_dependency fuel m n t ch = .cycle c := by
  intro n hp
  induction hp with
  | direct n hstep =>
    intro fuel ch hne
    cases fuel with
    | zero => exact absurd rfl hne
    | succ k =>
      obtain ⟨deps, hl, ht⟩ := lookup_some_of_step hstep
      rw [check_dependency_some k t ch hl] at hne ⊢
      cases hres : checkDeps (fun d ch => check_dependency k m d t ch) deps t ch with
      | ok => exact absurd rfl (checkDeps_ok_inv _ deps t ch hres t ht).1
      | cycle c => exact ⟨c, rfl⟩
      | fuelOut => exact absurd hres hne
  | step n d hstep hdt hpd ihd =>
    intro fuel ch hne
    cases fuel with
    | zero => exact absurd rfl hne
    | succ k =>
      obtain ⟨deps, hl, hdmem⟩ := lookup_some_of_step hstep
      rw [check_dependency_some k t ch hl] at hne ⊢
      cases hres : checkDeps (fun d ch => check_dependency k m d t ch) deps t ch with
      | ok =>
        have hok := (checkDeps_ok_inv _ deps t ch hres d hdmem).2
        obtain ⟨c, hc⟩ := ihd k (ch ++ [d]) (by rw [hok]; intro hx; cases hx)
        rw [hok] at hc
        cases hc
      | cycle c => exact ⟨c, rfl⟩
      | fuelOut => exact absurd hres hne

/-! ### Termination of the traversal -/

/-- One traversal step of the cycle check: an edge of the map whose head is
not the search target (the loop raises instead of recursing when the head
is the target). -/
def Fwd (m : DepMap) (target : String) (a b : String) : Prop :=
  Step m a b ∧ b ≠ target

theorem fuel_for_list (m : DepMap) (target : String) :
    ∀ deps : List String,
      (∀ d ∈ deps, d ≠ target →
        ∃ F, ∀ ch, check_dependency F m d target ch ≠ .fuelOut) →
      ∃ F, ∀ d ∈ deps, d ≠ target →
        ∀ ch, check_dependency F m d target ch ≠ .fuelOut := by
  intro deps
  induction deps with
  | nil => exact fun _ => ⟨0, fun d hd => absurd hd (List.not_mem_nil d)⟩
  | cons x rest ih =>
    intro h
    obtain ⟨Fr, hFr⟩ := ih (fun d hd => h d (List.mem_cons_of_mem x hd))
    by_cases hx : x = target
    · refine ⟨Fr, fun d hd hdt ch => ?_⟩
      rw [List.mem_cons] at hd
      rcases hd with hd | hd
      · exact absurd (hd.trans hx) hdt
      · exact hFr d hd hdt ch
    · obtain ⟨Fx, hFx⟩ := h x (List.mem_cons_self x rest) hx
      refine ⟨max Fx Fr, fun d hd hdt ch => ?_⟩
      rw [List.mem_cons] at hd
      rcases hd with hd | hd
      · subst hd
        rw [check_mono Fx (max Fx Fr) (le_max_left Fx Fr) m d target ch (hFx ch)]
        exact hFx ch
      · rw [check_mono Fr (max Fx Fr) (le_max_right Fx Fr) m d target ch (hFr d hd hdt ch)]
        exact hFr d hd hdt ch

theorem check_term {m : DepMap} {target : String} :
    ∀ name, Acc (fun b a => Fwd m target a b) name →
      ∃ fuel, ∀ ch, check_dependency fuel m name target ch ≠ .fuelOut := by
  intro name hacc
  induction hacc with
  | intro x hx ih =>
    cases hl : lookup m x with
    | none =>
      refine ⟨1, fun ch => ?_⟩
      rw [check_dependency_none 0 target ch hl]
      intro h
      cases h
    | some deps =>
      have hstep : ∀ d ∈ deps, Step m x d := by
        intro d hd
        unfold Step depsD
        rw [hl]
        exact hd
      have hprem : ∀ d ∈ deps, d ≠ target →
          ∃ F, ∀ ch, check_dependency F m d target ch ≠ .fuelOut :=
        fun d hd hdt => ih d ⟨hstep d hd, hdt⟩
      obtain ⟨F, hF⟩ := fuel_for_list m target deps hprem
      refine ⟨F + 1, fun ch => ?_⟩
      rw [check_dependency_some F target ch hl]
      intro hcon
      obtain ⟨d, hd, hdt, hfo⟩ := checkDeps_fuelOut_inv _ deps target ch hcon
      exact hF d hd hdt (ch ++ [d]) hfo

theorem acc_fwd (m : DepMap) (target name : String)
    (H : ∀ a, Relation.ReflTransGen (Fwd m target) name a →
      ¬ Relation.TransGen (Fwd m target) a a) :
    Acc (fun b a => Fwd m target a b) name := by
  have hnk : ∀ b, b ∉ m.map Prod.fst → Acc (fun b a => Fwd m target a b) b := by
    intro b hb
    constructor
    intro z hz
    exact absurd (depsD_ne_nil_mem_keys hz.1) hb
  have hfin : ({s | s ∈ m.map Prod.fst ∧
      Relation.ReflTransGen (Fwd m target) name s} : Set String).Finite :=
    Set.Finite.subset (List.finite_toSet (m.map Prod.fst)) (fun s hs => hs.1)
  haveI hsub : Finite ({s | s ∈ m.map Prod.fst ∧
      Relation.ReflTransGen (Fwd m target) name s} : Set String) := hfin.to_subtype
  have htr : IsTrans ({s | s ∈ m.map Prod.fst ∧
      Relation.ReflTransGen (Fwd m target) name s} : Set String)
      (fun x y => Relation.TransGen (Fwd m target) y.val x.val) :=
    ⟨fun a b c hab hbc => Relation.TransGen.trans hbc hab⟩
  have hir : IsIrrefl ({s | s ∈ m.map Prod.fst ∧
      Relation.ReflTransGen (Fwd m target) name s} : Set String)
      (fun x y => Relation.TransGen (Fwd m target) y.val x.val) :=
    ⟨fun x hxx => H x.val x.property.2 hxx⟩
  have hwf := @Finite.wellFounded_of_trans_of_irrefl _ hsub
      (fun x y => Relation.TransGen (Fwd m target) y.val x.val) htr hir
  have hkey : ∀ x : ({s | s ∈ m.map Prod.fst ∧
      Relation.ReflTransGen (Fwd m target) name s} : Set String),
      Acc (fun b a => Fwd m target a b) x.val := by
    intro x
    refine hwf.induction (C := fun z => Acc (fun b a => Fwd m target a b) z.val) x
      (fun y ihy => ?_)
    constructor
    intro b hb
    by_cases hbk : b ∈ m.map Prod.fst
    · have hreach : Relation.ReflTransGen (Fwd m target) name b :=
        Relation.ReflTransGen.tail y.property.2 hb
      exact ihy ⟨b, hbk, hreach⟩ (Relation.TransGen.single hb)
    · exact hnk b hbk
  by_cases hk : name ∈ m.map Prod.fst
  · exact hkey ⟨name, hk, Relation.ReflTransGen.refl⟩
  · exact hnk name hk

/-! ### Claim C1 -/

theorem transGen_fwd_imp {m : DepMap} {f t a b : String}
    (h : Relation.TransGen (Fwd (insertEdge m f t) f) a b) :
    b ≠ f ∧ (a ≠ f → Relation.TransGen (Step m) a b) := by
  induction h with
  | single hab =>
    exact ⟨hab.2, fun ha => Relation.TransGen.single (step_insertEdge_of_ne ha hab.1)⟩
  | tail hab hbc ih =>
    exact ⟨hbc.2, fun ha =>
      Relation.TransGen.tail (ih.2 ha) (step_insertEdge_of_ne ih.1 hbc.1)⟩

/-- **C1** (amended).  For a dependency map that is acyclic before the
insertion, `register_dependency(f, t)` raises `DependencyCycle` exactly when,
after appending `t` to `f`'s adjacency list, a (direct or transitive) path
leads from `t` back to `f`; and every raised chain begins and ends at `f`.
The acyclicity hypothesis is needed: on a map with a pre-existing cycle the
Python traversal can recurse forever (see the counterexample). -/
theorem C1_register_cycle_iff (m : DepMap) (f t : String) (hacy : Acyclic m) :
    (Raises m f t ↔ Relation.TransGen (Step (insertEdge m f t)) t f) ∧
    (∀ fuel c, (register_dependency fuel m f t).2 = .cycle c →
      c.head? = some f ∧ c.getLast? = some f) := by
  constructor
  · constructor
    · rintro ⟨fuel, c, hc⟩
      exact (check_sound fuel (insertEdge m f t) t f [f, t] c hc).1
    · intro hpath
      have hnocyc : ∀ a, ¬ Relation.TransGen (Fwd (insertEdge m f t) f) a a := by
        intro a hcyc
        obtain ⟨hne, himp⟩ := transGen_fwd_imp hcyc
        exact hacy a (himp hne)
      obtain ⟨fuel, hfuel⟩ :=
        check_term t (acc_fwd (insertEdge m f t) f t (fun a _ => hnocyc a))
      obtain ⟨c, hc⟩ :=
        check_complete t (pathTo_of_transGen hpath) fuel [f, t] (hfuel [f, t])
      exact ⟨fuel, c, hc⟩
  · intro fuel c hc
    obtain ⟨-, l, hcl, hlast⟩ := check_sound fuel (insertEdge m f t) t f [f, t] c hc
    have hlne : l ≠ [] := by
      intro hnil
      rw [hnil] at hlast
      cases hlast
    subst hcl
    refine ⟨by simp, ?_⟩
    rw [List.getLast?_append_of_ne_nil _ hlne]
    exact hlast

theorem acyclic_nil : Acyclic ([] : DepMap) := by
  have hstep : ∀ x y, ¬ Step ([] : DepMap) x y := by
    intro x y h
    simp [Step, depsD, lookup] at h
  intro a h
  cases h with
  | single h1 => exact hstep _ _ h1
  | tail _ h1 => exact hstep _ _ h1

/-- Witness for `C1_register_cycle_iff` at the empty map and edge
`"a" → "b"`. -/
theorem C1_register_cycle_iff_witness :
    Acyclic ([] : DepMap) ∧
    ((Raises ([] : DepMap) "a" "b" ↔
        Relation.TransGen (Step (insertEdge ([] : DepMap) "a" "b")) "b" "a") ∧
      (∀ fuel c, (register_dependency fuel ([] : DepMap) "a" "b").2 = .cycle c →
        c.head? = some "a" ∧ c.getLast? = some "a")) :=
  ⟨acyclic_nil, C1_register_cycle_iff [] "a" "b" acyclic_nil⟩

theorem cex_c_diverges : ∀ fuel ch,
    check_dependency fuel (insertEdge [("b", ["c", "a"]), ("c", ["c"])] "a" "b")
      "c" "a" ch = .fuelOut := by
  intro fuel
  induction fuel with
  | zero => intro ch; rfl
  | succ k ih =>
    intro ch
    have hl : lookup (insertEdge [("b", ["c", "a"]), ("c", ["c"])] "a" "b") "c" =
        some ["c"] := by decide
    rw [check_dependency_some k "a" ch hl, checkDeps_cons,
      if_neg (by decide : ¬("c" : String) = "a"), ih (ch ++ ["c"]),
      if_neg (by decide : ¬CheckResult.fuelOut = .ok)]

theorem cex_b_diverges : ∀ fuel ch,
    check_dependency fuel (insertEdge [("b", ["c", "a"]), ("c", ["c"])] "a" "b")
      "b" "a" ch = .fuelOut := by
  intro fuel ch
  cases fuel with
  | zero => rfl
  | succ k =>
    have hl : lookup (insertEdge [("b", ["c", "a"]), ("c", ["c"])] "a" "b") "b" =
        some ["c", "a"] := by decide
    rw [check_dependency_some k "a" ch hl, checkDeps_cons,
      if_neg (by decide : ¬("c" : String) = "a"), cex_c_diverges k (ch ++ ["c"]),
      if_neg (by decide : ¬CheckResult.fuelOut = .ok)]

/-- **C1** counterexample to the claim as stated ("for every dependency
map"): on the map `{b: [c, a], c: [c]}`, inserting the edge `a → b` leaves a
path from `b` back to `a` (directly, `a ∈ deps(b)`), yet `register_dependency`
never raises `DependencyCycle`: the depth-first traversal first enters the
pre-existing self-loop `c → c` and recurses forever (in Python it dies with
`RecursionError`). -/
theorem C1_counterexample :
    Relation.TransGen (Step (insertEdge [("b", ["c", "a"]), ("c", ["c"])] "a" "b")) "b" "a"
    ∧ ¬ Raises [("b", ["c", "a"]), ("c", ["c"])] "a" "b" := by
  constructor
  · have hmem : ("a" : String) ∈
        depsD (insertEdge [("b", ["c", "a"]), ("c", ["c"])] "a" "b") "b" := by decide
    exact Relation.TransGen.single hmem
  · rintro ⟨fuel, c, hc⟩
    have hc' : check_dependency fuel
        (insertEdge [("b", ["c", "a"]), ("c", ["c"])] "a" "b") "b" "a" ["a", "b"] =
        .cycle c := hc
    rw [cex_b_diverges fuel ["a", "b"]] at hc'
    cases hc'

/-! ### Claim C10 -/

/-- **C10**.  On a finite dependency map with no cycle reachable from the
starting node, `check_dependency(name, target, chain)` terminates: some
recursion depth (fuel) makes the traversal return instead of running out. -/
theorem C10_check_terminates (m : DepMap) (name target : String) (chain : List String)
    (H : ∀ a, Relation.ReflTransGen (Step m) name a →
      ¬ Relation.TransGen (Step m) a a) :
    ∃ fuel, check_dependency fuel m name target chain ≠ .fuelOut := by
  have H' : ∀ a, Relation.ReflTransGen (Fwd m target) name a →
      ¬ Relation.TransGen (Fwd m target) a a := by
    intro a hreach hcyc
    exact H a (Relation.ReflTransGen.mono (fun x y h => h.1) hreach)
      (Relation.TransGen.mono (fun x y h => h.1) hcyc)
  obtain ⟨fuel, hf⟩ := check_term name (acc_fwd m target name H')
  exact ⟨fuel, hf chain⟩

theorem no_cycle_ab : ∀ x, ¬ Relation.TransGen (Step [("a", ["b"])]) x x := by
  have hstep : ∀ x y, Step [("a", ["b"])] x y → x = "a" ∧ y = "b" := by
    intro x y h
    unfold Step depsD lookup at h
    by_cases hx : ("a" : String) = x
    · rw [if_pos hx] at h
      simp at h
      exact ⟨hx.symm, h⟩
    · rw [if_neg hx] at h
      exact absurd h (by simp [lookup])
  have htg : ∀ x y, Relation.TransGen (Step [("a", ["b"])]) x y → x = "a" ∧ y = "b" := by
    intro x y h
    induction h with
    | single h1 => exact hstep _ _ h1
    | tail hab hbc ih =>
      exact absurd (ih.2.symm.trans (hstep _ _ hbc).1) (by decide)
  intro x hx
  exact absurd ((htg x x hx).1.symm.trans (htg x x hx).2) (by decide)

/-- Witness for `C10_check_terminates` at the one-edge map `a → b`. -/
theorem C10_check_terminates_witness :
    ∃ fuel, check_dependency fuel [("a", ["b"])] "a" "t" [] ≠ .fuelOut :=
  C10_check_terminates [("a", ["b"])] "a" "t" [] (fun a _ => no_cycle_ab a)

/-! ## Path model for the per-file cache (claim C3)

`QMLifyFile.save_cache` (src 227-231) stores each dependency path relative
to the file's directory with `os.path.relpath`; `QMLifyFile.load_cache`
(src 233-236) rejoins each stored path to the directory and absolutises it
with `os.path.abspath(os.path.join(...))`.  Paths are modelled as a segment
list plus an absolute flag; the working directory (against which `relpath`
and `abspath` interpret relative arguments) is an explicit absolute segment
list `cwd`. -/

structure PyPath where
  absolute : Bool
  segs : List String
deriving DecidableEq

/-- The `.`/`..` stack normalisation performed by `os.path` when it
absolutises a path. -/
def normStack (acc : List String) : List String → List String
  | [] => acc
  | s :: rest =>
    if s = "." then normStack acc rest
    else if s = ".." then normStack acc.dropLast rest
    else normStack (acc ++ [s]) rest

/-- `os.path.abspath(p)` for a process whose working directory is the
absolute segment list `cwd`. -/
def abspathP (cwd : List String) (p : PyPath) : PyPath :=
  if p.absolute then ⟨true, normStack [] p.segs⟩
  else ⟨true, normStack [] (cwd ++ p.segs)⟩

/-- `os.path.join(a, b)`: no normalisation; an absolute `b` replaces `a`. -/
def joinP (a b : PyPath) : PyPath :=
  if b.absolute then b else ⟨a.absolute, a.segs ++ b.segs⟩

/-- Longest-common-prefix split used by `os.path.relpath`. -/
def stripCommon : List String → List String → List String × List String
  | a :: as', b :: bs' => if a = b then stripCommon as' bs' else (a :: as', b :: bs')
  | as', bs' => (as', bs')

/-- `os.path.relpath(p, start)`: absolutise both against `cwd`, drop the
common prefix and climb with one `..` per remaining `start` segment. -/
def relpathP (cwd : List String) (p start : PyPath) : PyPath :=
  let pr := stripCommon (abspathP cwd p).segs (abspathP cwd start).segs
  ⟨false, List.replicate pr.2.length ".." ++ pr.1⟩

/-- `QMLifyFile.save_cache` (src 227-231): the persisted cache entry holds
the dependency list made relative to the file's own directory, and
`list(self.globals)` — the elements of the discovered-globals set, taken
here as the (duplicate-free) list the set enumerates to. -/
def save_cache (cwd : List String) (dirname : PyPath) (dependencies : List PyPath)
    (globals : List String) : List PyPath × List String :=
  (dependencies.map (fun dep => relpathP cwd dep dirname), globals)

/-- `QMLifyFile.load_cache` (src 233-236) applied to an entry that is
present: rejoin each stored dependency to the directory, absolutise, and
turn the globals back into a set. -/
def load_cache_entry (cwd : List String) (dirname : PyPath)
    (entry : List PyPath × List String) : List PyPath × Finset String :=
  (entry.1.map (fun dep => abspathP cwd (joinP dirname dep)), entry.2.toFinset)

/-- Segment lists free of the special `.`/`..` entries. -/
def CleanSegs (l : List String) : Bool :=
  l.all (fun s => (s != ".") && (s != ".."))

theorem cleanSegs_iff {l : List String} :
    CleanSegs l = true ↔ ∀ s ∈ l, s ≠ "." ∧ s ≠ ".." := by
  simp [CleanSegs, List.all_eq_true]

theorem cleanSegs_append {l1 l2 : List String} (h1 : CleanSegs l1 = true)
    (h2 : CleanSegs l2 = true) : CleanSegs (l1 ++ l2) = true := by
  rw [cleanSegs_iff] at h1 h2 ⊢
  intro s hs
  rcases List.mem_append.mp hs with hs | hs
  · exact h1 s hs
  · exact h2 s hs

theorem normStack_cons (acc : List String) (s : String) (rest : List String) :
    normStack acc (s :: rest) =
      if s = "." then normStack acc rest
      else if s = ".." then normStack acc.dropLast rest
      else normStack (acc ++ [s]) rest := rfl

theorem normStack_clean : ∀ l acc, CleanSegs l = true → normStack acc l = acc ++ l := by
  intro l
  induction l with
  | nil => intro acc _; simp [normStack]
  | cons s rest ih =>
    intro acc h
    rw [cleanSegs_iff] at h
    obtain ⟨h1, h2⟩ := h s (List.mem_cons_self s rest)
    have hrest : CleanSegs rest = true := by
      rw [cleanSegs_iff]
      exact fun x hx => h x (List.mem_cons_of_mem s hx)
    rw [normStack_cons, if_neg h1, if_neg h2, ih (acc ++ [s]) hrest]
    simp

theorem normStack_append_clean : ∀ l1 l2 acc, CleanSegs l1 = true →
    normStack acc (l1 ++ l2) = normStack (acc ++ l1) l2 := by
  intro l1
  induction l1 with
  | nil => intro l2 acc _; simp
  | cons s rest ih =>
    intro l2 acc h
    rw [cleanSegs_iff] at h
    obtain ⟨h1, h2⟩ := h s (List.mem_cons_self s rest)
    have hrest : CleanSegs rest = true := by
      rw [cleanSegs_iff]
      exact fun x hx => h x (List.mem_cons_of_mem s hx)
    rw [List.cons_append, normStack_cons, if_neg h1, if_neg h2, ih l2 (acc ++ [s]) hrest]
    simp

theorem stripCommon_nil_left (b : List String) : stripCommon [] b = ([], b) := by
  cases b <;> rfl

theorem stripCommon_cons (a : String) (as' : List String) (b : String)
    (bs' : List String) : stripCommon (a :: as') (b :: bs') =
      if a = b then stripCommon as' bs' else (a :: as', b :: bs') := rfl

theorem stripCommon_spec : ∀ a b : List String,
    ∃ c, a = c ++ (stripCommon a b).1 ∧ b = c ++ (stripCommon a b).2 := by
  intro a
  induction a with
  | nil => intro b; exact ⟨[], by simp [stripCommon_nil_left]⟩
  | cons x as' ih =>
    intro b
    cases b with
    | nil => exact ⟨[], by simp [stripCommon]⟩
    | cons y bs' =>
      by_cases hxy : x = y
      · subst hxy
        obtain ⟨c, h1, h2⟩ := ih bs'
        rw [stripCommon_cons, if_pos rfl]
        exact ⟨x :: c, by simp [← h1], by simp [← h2]⟩
      · exact ⟨[], by rw [stripCommon_cons, if_neg hxy]; exact ⟨rfl, rfl⟩⟩

theorem normStack_pops : ∀ (sr C rest : List String),
    normStack (C ++ sr) (List.replicate sr.length ".." ++ rest) = normStack C rest := by
  intro sr
  induction sr using List.reverseRecOn with
  | nil => intro C rest; simp
  | append_singleton sr' a ih =>
    intro C rest
    have hlen : (sr' ++ [a]).length = sr'.length + 1 := by simp
    have hdrop : (C ++ (sr' ++ [a])).dropLast = C ++ sr' := by
      rw [← List.append_assoc]
      simp
    rw [hlen, List.replicate_succ, List.cons_append, normStack_cons,
      if_neg (by decide : ¬(".." : String) = "."), if_pos rfl, hdrop]
    exact ih C rest

theorem cleanSegs_sub {c x : List String} (h : CleanSegs (c ++ x) = true) :
    CleanSegs x = true := by
  rw [cleanSegs_iff] at h ⊢
  exact fun s hs => h s (List.mem_append_right c hs)

theorem abspathP_segs (cwd : List String) (p : PyPath) (hcwd : CleanSegs cwd = true)
    (hp : CleanSegs p.segs = true) :
    abspathP cwd p = ⟨true, if p.absolute then p.segs else cwd ++ p.segs⟩ := by
  unfold abspathP
  by_cases hb : p.absolute
  · rw [if_pos hb, if_pos hb, normStack_clean p.segs [] hp, List.nil_append]
  · rw [if_neg hb, if_neg hb,
      normStack_clean (cwd ++ p.segs) [] (cleanSegs_append hcwd hp), List.nil_append]

theorem pypath_ext {x y : PyPath} (h1 : x.absolute = y.absolute)
    (h2 : x.segs = y.segs) : x = y := by
  cases x
  cases y
  simp_all

theorem abspathP_absolute (cwd : List String) (p : PyPath) :
    (abspathP cwd p).absolute = true := by
  unfold abspathP
  by_cases hb : p.absolute
  · rw [if_pos hb]
  · rw [if_neg hb]

theorem join_norm (Bsegs c s1 s2 : List String) (hB : CleanSegs Bsegs = true)
    (hs1 : CleanSegs s1 = true) (hBeq : Bsegs = c ++ s2) :
    normStack [] (Bsegs ++ (List.replicate s2.length ".." ++ s1)) = c ++ s1 := by
  rw [normStack_append_clean _ _ [] hB, List.nil_append, hBeq, normStack_pops,
    normStack_clean s1 c hs1]

theorem abspath_join_segs (cwd : List String) (sabs : Bool)
    (ssegs rel : List String) :
    (abspathP cwd ⟨sabs, ssegs ++ rel⟩).segs =
      normStack [] ((if sabs then ssegs else cwd ++ ssegs) ++ rel) := by
  cases sabs
  · unfold abspathP
    simp [List.append_assoc]
  · unfold abspathP
    simp

/-- The algebraic heart of claim C3: `relpath` + `join` + `abspath` recovers
the absolutised original path. -/
theorem relpath_join_abspath (cwd : List String) (p start : PyPath)
    (hcwd : CleanSegs cwd = true) (hp : CleanSegs p.segs = true)
    (hs : CleanSegs start.segs = true) :
    abspathP cwd (joinP start (relpathP cwd p start)) = abspathP cwd p := by
  have hpA := abspathP_segs cwd p hcwd hp
  have hsB := abspathP_segs cwd start hcwd hs
  have hAclean : CleanSegs (abspathP cwd p).segs = true := by
    rw [hpA]
    by_cases hb : p.absolute
    · rw [if_pos hb]; exact hp
    · rw [if_neg hb]; exact cleanSegs_append hcwd hp
  have hBclean : CleanSegs (abspathP cwd start).segs = true := by
    rw [hsB]
    by_cases hb : start.absolute
    · rw [if_pos hb]; exact hs
    · rw [if_neg hb]; exact cleanSegs_append hcwd hs
  obtain ⟨c, hA1, hB1⟩ :=
    stripCommon_spec (abspathP cwd p).segs (abspathP cwd start).segs
  have hsc1 : CleanSegs
      (stripCommon (abspathP cwd p).segs (abspathP cwd start).segs).1 = true := by
    rw [hA1] at hAclean
    exact cleanSegs_sub hAclean
  have hjoin : joinP start (relpathP cwd p start) = ⟨start.absolute,
      start.segs ++ (List.replicate (stripCommon (abspathP cwd p).segs
        (abspathP cwd start).segs).2.length ".." ++
      (stripCommon (abspathP cwd p).segs (abspathP cwd start).segs).1)⟩ := rfl
  rw [hjoin]
  refine pypath_ext ?_ ?_
  · rw [abspathP_absolute, abspathP_absolute]
  · rw [abspath_join_segs]
    have hifB : (if start.absolute then start.segs else cwd ++ start.segs) =
        (abspathP cwd start).segs := by rw [hsB]
    rw [hifB,
      join_norm (abspathP cwd start).segs c
        (stripCommon (abspathP cwd p).segs (abspathP cwd start).segs).1
        (stripCommon (abspathP cwd p).segs (abspathP cwd start).segs).2
        hBclean hsc1 hB1, ← hA1]

/-- **C3** (amended).  Loading a saved cache entry back yields exactly the
global-name set that the rewrite produced, and the dependency list with each
entry replaced by its absolutised form: the relpath/rejoin round trip is the
identity composed with `abspath`.  (It is the identity itself only when the
in-memory dependencies are already absolute; the build stores cwd-relative
paths, so the loaded list differs from the stored one as strings — see the
counterexample.) -/
theorem C3_cache_roundtrip (cwd : List String) (dirname : PyPath)
    (deps : List PyPath) (g : List String)
    (hcwd : CleanSegs cwd = true) (hdir : CleanSegs dirname.segs = true)
    (hdeps : ∀ d ∈ deps, CleanSegs d.segs = true) :
    load_cache_entry cwd dirname (save_cache cwd dirname deps g) =
      (deps.map (fun d => abspathP cwd d), g.toFinset) := by
  unfold load_cache_entry save_cache
  simp only [Prod.mk.injEq]
  constructor
  · rw [List.map_map]
    apply List.map_congr_left
    intro d hd
    exact relpath_join_abspath cwd d dirname hcwd (hdeps d hd) hdir
  · trivial

/-- Witness for `C3_cache_roundtrip` on a concrete clean configuration. -/
theorem C3_cache_roundtrip_witness :
    CleanSegs ["home"] = true ∧
    load_cache_entry ["home"] ⟨true, ["home", "src"]⟩
        (save_cache ["home"] ⟨true, ["home", "src"]⟩
          [⟨true, ["home", "lib", "foo.js"]⟩] ["G"]) =
      ([⟨true, ["home", "lib", "foo.js"]⟩].map (fun d => abspathP ["home"] d),
        (["G"] : List String).toFinset) :=
  ⟨by decide, C3_cache_roundtrip ["home"] ⟨true, ["home", "src"]⟩
    [⟨true, ["home", "lib", "foo.js"]⟩] ["G"] (by decide) (by decide)
    (by
      intro d hd
      rw [List.mem_singleton] at hd
      subst hd
      decide)⟩

/-- **C3** counterexample to the claim as stated: for the build of `src/a.js`
run from `/home`, the rewrite records the cwd-relative dependency
`src/foo.js`; saving makes it `foo.js` (relative to `src`) and loading
returns the absolute `/home/src/foo.js`, which is not the in-memory value
the rewrite produced — the round trip is absolutisation, not the identity. -/
theorem C3_counterexample :
    (load_cache_entry ["home"] ⟨false, ["src"]⟩
      (save_cache ["home"] ⟨false, ["src"]⟩ [⟨false, ["src", "foo.js"]⟩] [])).1 ≠
      [⟨false, ["src", "foo.js"]⟩] := by decide

/-! ## Build staleness and the cache store (claims C5, C6) -/

/-- Python exceptions raised by the modelled code paths. -/
inductive PyErr : Type where
  | invalidImportForm (msg : String)
  | nameError (missing : String)
  | keyError (key : String)
  | cycleError (chain : List String)
  | yamlError
  | nonTermination
deriving DecidableEq

/-- One persisted cache entry (`{'dependencies': ..., 'globals': ...}`,
src 227-231). -/
structure CEntry where
  dependencies : List PyPath
  globals : List String
deriving DecidableEq

abbrev Cache := List (String × CEntry)

/-- Generic association-list lookup (a Python dict access that may miss). -/
def lookupA {α : Type} : List (String × α) → String → Option α
  | [], _ => none
  | (k, v) :: rest, n => if k = n then some v else lookupA rest n

/-- `filename.endswith(suffix)`. -/
def strEndsWith (s suf : String) : Bool :=
  suf.data.isSuffixOf s.data

/-- `QMLifyFile.needs_build` (src 171-175): output missing, input newer than
output, or the engine file itself (`__file__`) newer than output.
Modification times are modelled as naturals. -/
def needs_build (outExists : Bool) (inMtime outMtime selfMtime : Nat) : Bool :=
  !outExists || decide (inMtime > outMtime) || decide (selfMtime > outMtime)

/-- Outcome of the dispatch part of `QMLifyFile.build` (src 180-193); the
rewrite pass itself (src 195-225) is abstracted as the `.rebuild` outcome
and the asset copy (src 191-193) as `.copyAsset`. -/
inductive BuildStep : Type where
  | skipLoaded (dependencies : List PyPath) (globals : Finset String)
  | skipNoLoad
  | copyAsset
  | rebuild
deriving DecidableEq

/-- `QMLifyFile.build` (src 180-193) up to the rewrite: if not stale, a
`.js` file runs `load_cache` (src 233-236) — a raw dict access that raises
`KeyError` for an absent entry, and otherwise absolutises the stored
dependency paths and re-forms the globals set — and any other file is left
alone; if stale, a non-`.js` file is copied and a `.js` file is rewritten. -/
def build_step (outExists : Bool) (inMtime outMtime selfMtime : Nat)
    (filename : String) (cache : Cache) (cwd : List String) (dirname : PyPath) :
    Except PyErr BuildStep :=
  if needs_build outExists inMtime outMtime selfMtime = false then
    if strEndsWith filename ".js" then
      match lookupA cache filename with
      | none => .error (.keyError filename)
      | some info =>
        .ok (.skipLoaded
          (info.dependencies.map (fun dep => abspathP cwd (joinP dirname dep)))
          info.globals.toFinset)
    else .ok .skipNoLoad
  else if strEndsWith filename ".js" = false then .ok .copyAsset
  else .ok .rebuild

/-- State of the persisted cache file `.qmlify_cache`. -/
inductive CacheFile : Type where
  | absent
  | corrupt
  | valid (files : Cache)

/-- `QMLify.load_cache` (src 143-147): when the cache file does not exist
the cache is `{}`; otherwise the YAML parser runs with no exception handler
in `load_cache`/`load_yaml` (src 63-70), so malformed content propagates
the parser's own error. -/
def qmlify_load_cache : CacheFile → Except PyErr Cache
  | .absent => .ok []
  | .corrupt => .error .yamlError
  | .valid files => .ok files

/-- **C5**.  `needs_build` holds exactly when the output file is missing,
or the input is newer than the output, or the engine's own file is newer
than the output; and when it is false for a `.js` input whose cache entry
exists, the rewriter is not invoked: the build returns the loaded cache
data (`.skipLoaded`), not `.rebuild`. -/
theorem C5_staleness (outExists : Bool) (inM outM selfM : Nat) (filename : String)
    (cache : Cache) (cwd : List String) (dirname : PyPath) :
    (needs_build outExists inM outM selfM = true ↔
      (outExists = false ∨ outM < inM ∨ outM < selfM)) ∧
    (needs_build outExists inM outM selfM = false →
      strEndsWith filename ".js" = true →
      ∀ e, lookupA cache filename = some e →
        build_step outExists inM outM selfM filename cache cwd dirname =
          .ok (.skipLoaded
            (e.dependencies.map (fun dep => abspathP cwd (joinP dirname dep)))
            e.globals.toFinset)) := by
  constructor
  · unfold needs_build
    cases outExists <;> simp [gt_iff_lt]
  · intro hnb hjs e he
    unfold build_step
    rw [if_pos hnb, if_pos hjs, he]

/-- Witness for `C5_staleness`: a fresh file with a cache entry is served
from the cache. -/
theorem C5_staleness_witness :
    build_step true 5 10 3 "a.js" [("a.js", ⟨[], ["G"]⟩)] ["home"] ⟨true, ["home"]⟩ =
      .ok (.skipLoaded
        (([] : List PyPath).map (fun dep => abspathP ["home"] (joinP ⟨true, ["home"]⟩ dep)))
        (["G"] : List String).toFinset) :=
  (C5_staleness true 5 10 3 "a.js" [("a.js", ⟨[], ["G"]⟩)] ["home"]
    ⟨true, ["home"]⟩).2 (by decide) (by decide) ⟨[], ["G"]⟩ (by decide)

/-- **C6** counterexample to "missing or corrupt cache data never raises":
a `.js` file whose output is fresh (build skipped) but whose cache entry is
missing makes `load_cache` raise `KeyError` instead of being treated as a
first build. -/
theorem C6_counterexample :
    build_step true 5 10 3 "b.js" [] ["home"] ⟨true, ["home"]⟩ =
      .error (.keyError "b.js") := by rfl

/-- **C6** (amended).  Absence of the cache file is treated as an empty
cache, but corrupt cache data propagates the YAML parser's error (there is
no handler), and a fresh-output `.js` file missing from the cache raises
`KeyError` rather than being rebuilt. -/
theorem C6_cache_errors :
    (qmlify_load_cache .absent = .ok []) ∧
    (qmlify_load_cache .corrupt = .error .yamlError) ∧
    (∀ (outExists : Bool) (inM outM selfM : Nat) (filename : String)
      (cwd : List String) (dirname : PyPath),
      needs_build outExists inM outM selfM = false →
      strEndsWith filename ".js" = true →
      build_step outExists inM outM selfM filename [] cwd dirname =
        .error (.keyError filename)) := by
  refine ⟨rfl, rfl, ?_⟩
  intro outExists inM outM selfM filename cwd dirname hnb hjs
  unfold build_step
  rw [if_pos hnb, if_pos hjs]
  rfl

/-- Witness for `C6_cache_errors` at a concrete fresh file. -/
theorem C6_cache_errors_witness :
    build_step true 5 10 3 "c.js" [] ["h"] ⟨true, ["h"]⟩ =
      .error (.keyError "c.js") :=
  C6_cache_errors.2.2 true 5 10 3 "c.js" ["h"] ⟨true, ["h"]⟩ (by decide) (by decide)

/-! ## The require flow (claims C2, C4, C7)

`QMLifyFile.require` and its helpers (src 307-409), embedded over an
explicit session state.  Paths are identified with their absolute form:
`QMLifyFile.filename` is `os.path.relpath` of it against the cwd (src 152)
and denotes the same file; the relpath/abspath bookkeeping itself is the
subject of claim C3.  Python set iteration is modelled by lists carrying
the set's elements. -/

/-- Substring test on character lists (Python's `in` on strings). -/
def hasSub (pat : List Char) : List Char → Bool
  | [] => pat.isEmpty
  | c :: rest => pat.isPrefixOf (c :: rest) || hasSub pat rest

/-- Python `pat in s`. -/
def strHas (s pat : String) : Bool := hasSub pat.data s.data

/-- Python `s.startswith(p)`. -/
def strStarts (s p : String) : Bool := p.data.isPrefixOf s.data

/-- `import_path.split('/', 1)[0]` when a slash occurs, else the whole
specifier (src 341-346). -/
def firstSeg (s : String) : String := String.mk (s.data.takeWhile (fun c => c ≠ '/'))

/-- `os.path.abspath(os.path.join(a, b))` for an absolute, already
normalised `a`: concatenation, with the `./` a relative specifier
contributes dropped by the normalisation.  (The path algebra itself is
modelled in full for claim C3.) -/
def pathJoin (a b : String) : String :=
  a ++ "/" ++ (if strStarts b "./" then String.mk (b.data.drop 2) else b)

/-- `s |= other` on Python sets, with the list standing for the set. -/
def setUnion (l1 l2 : List String) : List String :=
  l1 ++ l2.filter (fun x => !(l1.contains x))

/-- The fields of the requiring `QMLifyFile` and of the session (`QMLify`)
that the require flow touches. -/
structure RState where
  depMap : DepMap
  files : List String
  cache : List (String × List String)
  outputs : List String
  created : List String
  rewritten : List String
  dependencies : List String
  imported_globals : List String
  globals : List String
  header : List String
  post_header : List String

/-- The fields of the requiring file that stay fixed during one require. -/
structure FileCtx where
  dirname : String
  out_filename : String
  base_dir : String

/-- Filesystem and collaborator oracles, plus the fuel available to the
cycle check. -/
structure Env where
  staleInit : String → Bool
  depGlobals : String → List String
  npmExists : String → Bool
  available_modules : List (String × String)
  fsExists : String → Bool
  checkFuel : Nat

/-- `QMLifyFile(...).build()` for a required target (src 330-332, 180-225),
with the target's own rewrite pass abstracted: its discovered globals come
from the oracle `env.depGlobals`.  A target is stale when the oracle says so
and no build of this session has written its output yet (a rewrite makes
the output newer than the input).  A rewrite registers the file and saves
its cache entry (src 219-228); a skipped `.js` build runs `load_cache`
(src 181-184, 233-236), whose raw dict access raises `KeyError` when the
entry is absent. -/
def nested_build (env : Env) (st : RState) (dependency : String) :
    Except PyErr (List String) × RState :=
  if env.staleInit dependency && !(st.outputs.contains dependency) then
    (.ok (env.depGlobals dependency),
      { st with
        outputs := st.outputs ++ [dependency]
        rewritten := st.rewritten ++ [dependency]
        files := st.files ++ [dependency]
        cache := (dependency, env.depGlobals dependency) :: st.cache })
  else
    match lookupA st.cache dependency with
    | none => (.error (.keyError dependency), st)
    | some gs => (.ok gs, st)

/-- `QMLifyFile.add_dependency` (src 307-320) for a `QMLifyFile` dependency:
re-export the dependency's globals not yet imported, merge the global sets,
append to `self.dependencies`, then `register_dependency` — whose
`DependencyCycle` (or, in the model, fuel exhaustion) aborts the require. -/
def add_dependency (env : Env) (ctx : FileCtx) (st : RState)
    (depFilename : String) (depGlobals : List String) (importAs : String) :
    Except PyErr Unit × RState :=
  let newLines := (depGlobals.filter (fun n => !(st.imported_globals.contains n))).map
    (fun n => "var " ++ n ++ " = global." ++ n ++ " = " ++ importAs ++ ".global." ++ n ++ ";\n")
  let st1 := { st with
    post_header := st.post_header ++ newLines
    globals := setUnion st.globals depGlobals
    imported_globals := setUnion st.imported_globals depGlobals
    dependencies := st.dependencies ++ [depFilename] }
  let r := register_dependency env.checkFuel st1.depMap ctx.out_filename depFilename
  match r.2 with
  | .cycle chain => (.error (.cycleError chain), { st1 with depMap := r.1 })
  | .fuelOut => (.error .nonTermination, { st1 with depMap := r.1 })
  | .ok => (.ok (), { st1 with depMap := r.1 })

/-- Exception propagation: run the continuation on a normal result, let a
raised exception fall through with the state it left behind. -/
def thenE {A B : Type} (r : Except PyErr A × RState)
    (f : A → RState → Except PyErr B × RState) : Except PyErr B × RState :=
  match r.1 with
  | .error e => (.error e, r.2)
  | .ok a => f a r.2

/-- `QMLifyFile.require_local` (src 322-338): forbid a `.js` substring in
the specifier, append `.js`, construct a fresh `QMLifyFile` record
(src 330 — every call constructs a new one), build it, add the dependency
and emit the `.import` header line. -/
def require_local (env : Env) (ctx : FileCtx) (st : RState)
    (filename importAs : String) : Except PyErr String × RState :=
  if strHas filename ".js" then
    (.error (.invalidImportForm
      ("Don't include the .js file extension when importing/requiring: " ++ filename)), st)
  else
    let filename2 := filename ++ ".js"
    let dependency := pathJoin ctx.dirname filename2
    let st1 := { st with created := st.created ++ [dependency] }
    thenE (nested_build env st1 dependency) (fun gs st2 =>
      thenE (add_dependency env ctx st2 dependency gs importAs) (fun _ st3 =>
        (.ok (importAs ++ ".module.exports"),
          { st3 with header := st3.header ++
            [".import \"" ++ filename2 ++ "\" as " ++ importAs ++ "\n"] })))

/-- `QMLifyFile.require_npm` (src 340-370), modelled at the resolution
level: when the package directory is absent (`NPMModule.exists`,
src 429-431) it returns `None` having mutated nothing; the successful
branch (nested build of the package entry, registration, header line) is
abstracted to a `.some` marker with the inline expression of src 370 —
no claim depends on its internals. -/
def require_npm (env : Env) (st : RState) (importPath importAs : String) :
    Option String × RState :=
  if env.npmExists (firstSeg importPath) then
    (some (importAs ++ ".module.exports"), st)
  else (none, st)

/-- `QMLifyFile.require_qpm` (src 372-374): unimplemented, returns `None`. -/
def require_qpm (st : RState) (importPath importAs : String) :
    Option String × RState := (none, st)

/-- `QMLifyFile.require_qml` (src 376-384): `None` when the specifier is
not a registered module; the registered branch (version parsing, symbolic
dependency, header line) is abstracted to a `.some` marker — no claim
depends on its internals. -/
def require_qml (env : Env) (st : RState) (importPath importAs : String) :
    Option String × RState :=
  match lookupA env.available_modules importPath with
  | none => (none, st)
  | some _ => (some ("(" ++ importAs ++ ")"), st)

/-- `QMLifyFile.require` (src 386-409).  The error paths at src 390 and
src 405/409 evaluate the name `module_name`, which is bound nowhere in
`require` (it is local to `require_npm`), so Python raises
`NameError: name 'module_name' is not defined` before the intended
`Exception` message is even built. -/
def require (env : Env) (ctx : FileCtx) (st : RState)
    (importPath importAs : String) : Except PyErr String × RState :=
  if strStarts importPath "./" || strStarts importPath "../" then
    require_local env ctx st importPath importAs
  else if strHas importPath ".js" then
    (.error (.nameError "module_name"), st)
  else
    match require_npm env st importPath importAs with
    | (some r, st1) => (.ok r, st1)
    | (none, st1) =>
      match require_qpm st1 importPath importAs with
      | (some r, st2) => (.ok r, st2)
      | (none, st2) =>
        match require_qml env st2 importPath importAs with
        | (some r, st3) => (.ok r, st3)
        | (none, st3) =>
          if env.fsExists (pathJoin ctx.dirname (importPath ++ ".js")) then
            (.error (.nameError "module_name"), st3)
          else
            (.error (.nameError "module_name"), st3)

/-- An empty session state (fresh build of one file). -/
def st0 : RState :=
  { depMap := [], files := [], cache := [], outputs := [], created := []
    rewritten := [], dependencies := [], imported_globals := [], globals := []
    header := [], post_header := [] }

/-- Context of a file `/src/a.js` building into `/build`. -/
def ctx0 : FileCtx :=
  { dirname := "/src", out_filename := "/build/a.js", base_dir := "/src" }

/-- Oracle: every target stale, no npm packages, no registered modules, no
stray files on disk, one unit of check fuel. -/
def env0 : Env :=
  { staleInit := fun _ => true, depGlobals := fun _ => [], npmExists := fun _ => false
    available_modules := [], fsExists := fun _ => false, checkFuel := 1 }

/-- Like `env0` but a same-named `.js` file exists on disk. -/
def env7 : Env :=
  { env0 with fsExists := fun _ => true }

/-- **C4**.  A relative specifier containing `.js` fails with the
invalid-import-form error before any mutation: the returned state is the
input state, so no dependency edge is inserted and no nested build runs. -/
theorem C4_relative_js_rejected (env : Env) (ctx : FileCtx) (st : RState)
    (p importAs : String)
    (hrel : (strStarts p "./" || strStarts p "../") = true)
    (hjs : strHas p ".js" = true) :
    require env ctx st p importAs =
      (.error (.invalidImportForm
        ("Don't include the .js file extension when importing/requiring: " ++ p)), st) := by
  unfold require
  rw [if_pos hrel]
  unfold require_local
  rw [if_pos hjs]

/-- Witness for `C4_relative_js_rejected` at `require('./foo.js')`. -/
theorem C4_relative_js_rejected_witness :
    require env0 ctx0 st0 "./foo.js" "QML_foo" =
      (.error (.invalidImportForm
        ("Don't include the .js file extension when importing/requiring: " ++ "./foo.js")),
       st0) :=
  C4_relative_js_rejected env0 ctx0 st0 "./foo.js" "QML_foo" (by decide) (by decide)

/-- **C7** (code bug).  A non-relative specifier matching no resolution
strategy does fail, but with `NameError: name 'module_name' is not defined`
— in both branches (same-named `.js` file present or not) — rather than
with a message naming the specifier as the claim (and the code's own
intended `Exception` strings) require. -/
theorem C7_unresolved_nameerror :
    (require env0 ctx0 st0 "leftpad" "QML_leftpad" =
      (.error (.nameError "module_name"), st0)) ∧
    (require env7 ctx0 st0 "leftpad" "QML_leftpad" =
      (.error (.nameError "module_name"), st0)) := by
  constructor
  · rfl
  · rfl

theorem thenE_ok {A B : Type} {r : Except PyErr A × RState} {a : A} {s : RState}
    (f : A → RState → Except PyErr B × RState) (h : r = (.ok a, s)) :
    thenE r f = f a s := by
  subst h
  rfl

theorem depsD_insertEdge_self (m : DepMap) (f t : String) :
    depsD (insertEdge m f t) f = depsD m f ++ [t] := by
  unfold depsD
  rw [lookup_insertEdge_self]
  rfl

/-- Effect of one fresh `require_local` (target stale, never built in this
session, not yet a key of the dependency map): the rewrite runs, the record
and edge are added once. -/
theorem require_local_fresh (env : Env) (ctx : FileCtx) (st : RState)
    (p importAs dep : String)
    (hdep : dep = pathJoin ctx.dirname (p ++ ".js"))
    (hjs : strHas p ".js" = false)
    (hstale : env.staleInit dep = true)
    (hout : st.outputs.contains dep = false)
    (hkey : lookup st.depMap dep = none)
    (hne : dep ≠ ctx.out_filename)
    (hfuel : 0 < env.checkFuel) :
    require_local env ctx st p importAs =
      (.ok (importAs ++ ".module.exports"),
       { st with
          created := st.created ++ [dep]
          outputs := st.outputs ++ [dep]
          rewritten := st.rewritten ++ [dep]
          files := st.files ++ [dep]
          cache := (dep, env.depGlobals dep) :: st.cache
          post_header := st.post_header ++
            ((env.depGlobals dep).filter
              (fun n => !(st.imported_globals.contains n))).map
              (fun n => "var " ++ n ++ " = global." ++ n ++ " = " ++ importAs ++
                ".global." ++ n ++ ";\n")
          globals := setUnion st.globals (env.depGlobals dep)
          imported_globals := setUnion st.imported_globals (env.depGlobals dep)
          dependencies := st.dependencies ++ [dep]
          depMap := insertEdge st.depMap ctx.out_filename dep
          header := st.header ++
            [".import \"" ++ p ++ ".js" ++ "\" as " ++ importAs ++ "\n"] }) := by
  subst hdep
  obtain ⟨k, hk⟩ : ∃ k, env.checkFuel = k + 1 :=
    ⟨env.checkFuel - 1, (Nat.succ_pred_eq_of_pos hfuel).symm⟩
  have hlook : lookup (insertEdge st.depMap ctx.out_filename
      (pathJoin ctx.dirname (p ++ ".js"))) (pathJoin ctx.dirname (p ++ ".js")) = none := by
    rw [lookup_insertEdge_other _ _ _ _ hne]
    exact hkey
  have hchk := check_dependency_none k ctx.out_filename
    [ctx.out_filename, pathJoin ctx.dirname (p ++ ".js")] hlook
  have hout' : pathJoin ctx.dirname (p ++ ".js") ∉ st.outputs := by
    simpa using hout
  simp [require_local, thenE, nested_build, add_dependency, register_dependency,
    hjs, hstale, hout', hk, hchk, String.append_assoc]

/-- Effect of a `require_local` whose target was already built this session:
a fresh record is still constructed, its build is skipped and served from
the cache, and the edge is registered again. -/
theorem require_local_cached (env : Env) (ctx : FileCtx) (st : RState)
    (p importAs dep : String) (gs : List String)
    (hdep : dep = pathJoin ctx.dirname (p ++ ".js"))
    (hjs : strHas p ".js" = false)
    (hout : dep ∈ st.outputs)
    (hcache : lookupA st.cache dep = some gs)
    (hkey : lookup st.depMap dep = none)
    (hne : dep ≠ ctx.out_filename)
    (hfuel : 0 < env.checkFuel) :
    require_local env ctx st p importAs =
      (.ok (importAs ++ ".module.exports"),
       { st with
          created := st.created ++ [dep]
          post_header := st.post_header ++
            (gs.filter (fun n => !(st.imported_globals.contains n))).map
              (fun n => "var " ++ n ++ " = global." ++ n ++ " = " ++ importAs ++
                ".global." ++ n ++ ";\n")
          globals := setUnion st.globals gs
          imported_globals := setUnion st.imported_globals gs
          dependencies := st.dependencies ++ [dep]
          depMap := insertEdge st.depMap ctx.out_filename dep
          header := st.header ++
            [".import \"" ++ p ++ ".js" ++ "\" as " ++ importAs ++ "\n"] }) := by
  subst hdep
  obtain ⟨k, hk⟩ : ∃ k, env.checkFuel = k + 1 :=
    ⟨env.checkFuel - 1, (Nat.succ_pred_eq_of_pos hfuel).symm⟩
  have hlook : lookup (insertEdge st.depMap ctx.out_filename
      (pathJoin ctx.dirname (p ++ ".js"))) (pathJoin ctx.dirname (p ++ ".js")) = none := by
    rw [lookup_insertEdge_other _ _ _ _ hne]
    exact hkey
  have hchk := check_dependency_none k ctx.out_filename
    [ctx.out_filename, pathJoin ctx.dirname (p ++ ".js")] hlook
  simp [require_local, thenE, nested_build, add_dependency, register_dependency,
    hjs, hout, hcache, hk, hchk, String.append_assoc]

/-- **C2** (amended).  A relative specifier required twice registers the
dependency edge once per occurrence — it appears twice in the dependency
map — and the second require constructs a second, fresh build record (the
session's file registry is never consulted); only the nested build is
shared: the second one is skipped by the staleness check and served from
the cache, so the rewrite ran once. -/
theorem C2_registered_per_occurrence (env : Env) (ctx : FileCtx) (st : RState)
    (p importAs dep : String)
    (hdep : dep = pathJoin ctx.dirname (p ++ ".js"))
    (hrel : strStarts p "./" = true)
    (hjs : strHas p ".js" = false)
    (hstale : env.staleInit dep = true)
    (hout : st.outputs.contains dep = false)
    (hkey : lookup st.depMap dep = none)
    (hne : dep ≠ ctx.out_filename)
    (hfuel : 0 < env.checkFuel) :
    ∃ st1 st2 : RState,
      require env ctx st p importAs = (.ok (importAs ++ ".module.exports"), st1) ∧
      require env ctx st1 p importAs = (.ok (importAs ++ ".module.exports"), st2) ∧
      (depsD st2.depMap ctx.out_filename).count dep =
        (depsD st.depMap ctx.out_filename).count dep + 2 ∧
      st2.created = st.created ++ [dep, dep] ∧
      st2.rewritten = st.rewritten ++ [dep] := by
  have hrel' : (strStarts p "./" || strStarts p "../") = true := by
    rw [hrel]
    rfl
  have hreq : ∀ s : RState, require env ctx s p importAs =
      require_local env ctx s p importAs := by
    intro s
    unfold require
    rw [if_pos hrel']
  have h1 := require_local_fresh env ctx st p importAs dep hdep hjs hstale hout hkey
    hne hfuel
  obtain ⟨R1, hR1, hout1, hcache1, hdm1, hcr1, hrw1⟩ :
      ∃ R1 : RState, require_local env ctx st p importAs =
          (.ok (importAs ++ ".module.exports"), R1) ∧
        R1.outputs = st.outputs ++ [dep] ∧
        R1.cache = (dep, env.depGlobals dep) :: st.cache ∧
        R1.depMap = insertEdge st.depMap ctx.out_filename dep ∧
        R1.created = st.created ++ [dep] ∧
        R1.rewritten = st.rewritten ++ [dep] :=
    ⟨_, h1, rfl, rfl, rfl, rfl, rfl⟩
  have h2 := require_local_cached env ctx R1 p importAs dep (env.depGlobals dep)
    hdep hjs
    (by rw [hout1]; simp)
    (by rw [hcache1]; simp [lookupA])
    (by
      rw [hdm1, lookup_insertEdge_other _ _ _ _ hne]
      exact hkey)
    hne hfuel
  obtain ⟨R2, hR2, hdm2, hcr2, hrw2⟩ :
      ∃ R2 : RState, require_local env ctx R1 p importAs =
          (.ok (importAs ++ ".module.exports"), R2) ∧
        R2.depMap = insertEdge R1.depMap ctx.out_filename dep ∧
        R2.created = R1.created ++ [dep] ∧
        R2.rewritten = R1.rewritten :=
    ⟨_, h2, rfl, rfl, rfl⟩
  refine ⟨R1, R2, ?_, ?_, ?_, ?_, ?_⟩
  · rw [hreq st, hR1]
  · rw [hreq R1, hR2]
  · rw [hdm2, hdm1, depsD_insertEdge_self, depsD_insertEdge_self]
    simp [List.count_append]
  · rw [hcr2, hcr1, List.append_assoc]
    rfl
  · rw [hrw2, hrw1]

/-- Witness for `C2_registered_per_occurrence` at `require('./bar')` done
twice from `/src/a.js`. -/
theorem C2_registered_per_occurrence_witness :
    ∃ st1 st2 : RState,
      require env0 ctx0 st0 "./bar" "QML_bar" =
        (.ok ("QML_bar" ++ ".module.exports"), st1) ∧
      require env0 ctx0 st1 "./bar" "QML_bar" =
        (.ok ("QML_bar" ++ ".module.exports"), st2) ∧
      (depsD st2.depMap ctx0.out_filename).count "/src/bar.js" =
        (depsD st0.depMap ctx0.out_filename).count "/src/bar.js" + 2 ∧
      st2.created = st0.created ++ ["/src/bar.js", "/src/bar.js"] ∧
      st2.rewritten = st0.rewritten ++ ["/src/bar.js"] :=
  C2_registered_per_occurrence env0 ctx0 st0 "./bar" "QML_bar" "/src/bar.js"
    (by decide) (by decide) (by decide) (by decide) (by decide) (by decide)
    (by decide) (by decide)

/-- **C2** counterexample to the claim as stated: two `require('./foo')`
occurrences in `/src/a.js` leave the edge `a.js → foo.js` in the dependency
map twice (not "exactly once"), and two build records were constructed (the
second require did not reuse the registry's record). -/
theorem C2_counterexample :
    (depsD (require env0 ctx0 (require env0 ctx0 st0 "./foo" "QML_foo").2
        "./foo" "QML_foo").2.depMap "/build/a.js").count "/src/foo.js" = 2 ∧
    (require env0 ctx0 (require env0 ctx0 st0 "./foo" "QML_foo").2
        "./foo" "QML_foo").2.created = ["/src/foo.js", "/src/foo.js"] := by
  constructor
  · rfl
  · rfl

/-! ## Namespace-identifier generation (claim C8) -/

/-- One `str.replace(old, new)` with a single-character pattern is a
character map. -/
def replChar (old new c : Char) : Char := if c = old then new else c

/-- `module_var`'s replacement chain
`.replace('/', '_').replace('.', '_').replace('-', '_')` (src 273). -/
def replaceChain (l : List Char) : List Char :=
  ((l.map (replChar '/' '_')).map (replChar '.' '_')).map (replChar '-' '_')

/-- `if import_path.startswith('./'): import_path = import_path[2:]`
(src 268-269). -/
def stripDotSlash : List Char → List Char
  | '.' :: '/' :: rest => rest
  | l => l

/-- The `while import_path.startswith('../')` loop (src 270-271):
`import_path = '_' + import_path[2:]` drops the two dots but keeps the
slash.  After one iteration the string starts with `'_'`, so the loop can
only run once; the recursion mirrors the loop nonetheless. -/
def upConvert : List Char → List Char
  | '.' :: '.' :: '/' :: rest => upConvert ('_' :: '/' :: rest)
  | l => l
termination_by l => l.length
decreasing_by simp

/-- `QMLifyFile.module_var` (src 267-273). -/
def module_var (import_path : String) : String :=
  "QML_" ++ String.mk (replaceChain (upConvert (stripDotSlash import_path.data)))

/-- Combined replacement of `/`, `.` and `-` by `_`. -/
def replAll (c : Char) : Char := if c = '/' ∨ c = '.' ∨ c = '-' then '_' else c

/-- Modelled from the claim's words, for comparison with `module_var`:
"each leading `../` converted into a `'_'` prefix segment" — the whole
three-character `../` becomes one `'_'`, repeatedly. -/
def claimUp : List Char → List Char
  | '.' :: '.' :: '/' :: rest => '_' :: claimUp rest
  | l => l

/-- The claim's description of the generated identifier: strip a leading
`./`, convert each leading `../` into a `'_'` prefix segment, replace every
separator, dot and hyphen by `'_'`, and prefix the fixed `QML_` marker. -/
def claim_module_var (import_path : String) : String :=
  "QML_" ++ String.mk ((claimUp (stripDotSlash import_path.data)).map replAll)

/-- Amended description: a leading `../` contributes `'__'` (its dots
collapse to one `'_'` and its slash is replaced), and everything after it —
including any further `../` segments — goes through the general
replacement of `/`, `.` and `-` by `'_'`. -/
def amendedBody : List Char → List Char
  | '.' :: '.' :: '/' :: rest => '_' :: '_' :: rest.map replAll
  | l => l.map replAll

def amended_module_var (import_path : String) : String :=
  "QML_" ++ String.mk (amendedBody (stripDotSlash import_path.data))

theorem repl_comp (c : Char) :
    replChar '-' '_' (replChar '.' '_' (replChar '/' '_' c)) = replAll c := by
  unfold replChar replAll
  by_cases h1 : c = '/'
  · subst h1; rfl
  · by_cases h2 : c = '.'
    · subst h2; rfl
    · by_cases h3 : c = '-'
      · subst h3; rfl
      · simp [h1, h2, h3]

theorem replaceChain_eq (l : List Char) : replaceChain l = l.map replAll := by
  unfold replaceChain
  rw [List.map_map, List.map_map]
  exact List.map_congr_left (fun c _ => repl_comp c)

theorem upConvert_match (rest : List Char) :
    upConvert ('.' :: '.' :: '/' :: rest) = '_' :: '/' :: rest := by
  rw [upConvert, upConvert]
  intro r h
  simp at h

/-- **C8** (amended).  The generated namespace identifier is `QML_`
followed by the specifier with a leading `./` stripped, a leading `../`
contributing `'__'` (dots collapsed to `'_'`, slash replaced), and every
remaining separator, dot and hyphen replaced by `'_'`; as a function it is
deterministic, so the same specifier always yields the same identifier. -/
theorem C8_module_var_amended (p : String) :
    module_var p = amended_module_var p := by
  unfold module_var amended_module_var
  rw [replaceChain_eq]
  congr 1
  congr 1
  rw [amendedBody.eq_def]
  split
  · rename_i rest heq
    rw [heq, upConvert_match]
    simp [replAll]
  · rename_i hno
    rw [upConvert]
    exact fun r h => hno r h

/-- **C8** counterexample to the claim's description: for `require('../x')`
the code produces `QML___x` (the kept slash also becomes an underscore),
not the `QML__x` the "each leading `../` becomes a `'_'` prefix segment"
description yields. -/
theorem C8_counterexample :
    module_var "../x" = "QML___x" ∧ claim_module_var "../x" = "QML__x" := by
  constructor
  · show "QML_" ++ String.mk (replaceChain (upConvert (stripDotSlash ("../x").data))) = _
    rw [show stripDotSlash ("../x").data = '.' :: '.' :: '/' :: ['x'] from rfl,
      upConvert_match]
    rfl
  · rfl

/-! ## Implicit-global re-export (claim C9) -/

/-- The footer line `'var {name} = global.{name};\n'` (src 262). -/
def footer_decl (n : String) : String := "var " ++ n ++ " = global." ++ n ++ ";\n"

/-- The names `QMLifyFile.export_globals` (src 259-262) declares: every
discovered global not already satisfied by an imported dependency.
`self.globals` is a Python set, modelled as the duplicate-free list it
iterates as. -/
def export_global_names (globals imported : List String) : List String :=
  globals.filter (fun n => !(imported.contains n))

/-- The assembled footer: the concatenation of one declaration per exported
name. -/
def export_globals (globals imported : List String) : String :=
  String.join ((export_global_names globals imported).map footer_decl)

/-- The globals bookkeeping of `add_dependency` (src 307-313). -/
structure GSt where
  globals : List String
  imported_globals : List String
  post_header_names : List String

/-- One `add_dependency(dep, ...)` as it affects the global sets: re-export
the dependency's not-yet-imported globals into the post-header, then merge
the dependency's globals into both sets (src 309-313). -/
def add_dep_globals (st : GSt) (depGlobals : List String) : GSt :=
  { post_header_names := st.post_header_names ++
      depGlobals.filter (fun n => !(st.imported_globals.contains n))
    globals := setUnion st.globals depGlobals
    imported_globals := setUnion st.imported_globals depGlobals }

theorem mem_setUnion {N : String} {l1 l2 : List String}
    (h : N ∈ l1 ∨ N ∈ l2) : N ∈ setUnion l1 l2 := by
  unfold setUnion
  rcases h with h | h
  · exact List.mem_append_left _ h
  · by_cases h1 : N ∈ l1
    · exact List.mem_append_left _ h1
    · refine List.mem_append_right _ ?_
      rw [List.mem_filter]
      refine ⟨h, ?_⟩
      simp [h1]

theorem count_filter_nodup : ∀ (l : List String) (q : String → Bool) (N : String),
    l.Nodup → (l.filter q).count N = if N ∈ l ∧ q N = true then 1 else 0 := by
  intro l
  induction l with
  | nil => intro q N _; simp
  | cons a l ih =>
    intro q N hnd
    rw [List.nodup_cons] at hnd
    obtain ⟨hna, hnd⟩ := hnd
    by_cases hq : q a = true
    · rw [List.filter_cons_of_pos hq]
      by_cases hN : N = a
      · subst hN
        rw [List.count_cons_self]
        rw [ih q N hnd, if_neg (fun hc => hna hc.1), if_pos ⟨List.mem_cons_self N l, hq⟩]
      · rw [List.count_cons_of_ne (fun hc => hN hc) ]
        rw [ih q N hnd]
        by_cases hm : N ∈ l ∧ q N = true
        · rw [if_pos hm, if_pos ⟨List.mem_cons_of_mem a hm.1, hm.2⟩]
        · rw [if_neg hm, if_neg (fun hc => hm ⟨(List.mem_cons.mp hc.1).resolve_left hN, hc.2⟩)]
    · rw [List.filter_cons_of_neg (by simpa using hq)]
      rw [ih q N hnd]
      by_cases hN : N = a
      · subst hN
        rw [if_neg (fun hc => hna hc.1), if_neg (fun hc => hq hc.2)]
      · by_cases hm : N ∈ l ∧ q N = true
        · rw [if_pos hm, if_pos ⟨List.mem_cons_of_mem a hm.1, hm.2⟩]
        · rw [if_neg hm, if_neg (fun hc => hm ⟨(List.mem_cons.mp hc.1).resolve_left hN, hc.2⟩)]

theorem mem_imported_foldl : ∀ (deps : List (List String)) (st : GSt) (N : String),
    ((∃ d ∈ deps, N ∈ d) ∨ N ∈ st.imported_globals) →
    N ∈ (deps.foldl add_dep_globals st).imported_globals := by
  intro deps
  induction deps with
  | nil =>
    intro st N h
    rcases h with ⟨d, hd, _⟩ | h
    · cases hd
    · exact h
  | cons d ds ih =>
    intro st N h
    rw [List.foldl_cons]
    apply ih
    rcases h with ⟨d', hd', hN⟩ | h
    · rw [List.mem_cons] at hd'
      rcases hd' with hd' | hd'
      · subst hd'
        exact Or.inr (mem_setUnion (Or.inr hN))
      · exact Or.inl ⟨d', hd', hN⟩
    · exact Or.inr (mem_setUnion (Or.inl h))

/-- **C9**.  The footer declares each discovered global that is not
satisfied by an imported dependency exactly once, and no global in the
imported set; in particular a name exposed by any required dependency —
even by several — is never declared in the footer. -/
theorem C9_export_globals :
    (∀ (globals imported : List String) (N : String), globals.Nodup →
      (export_global_names globals imported).count N =
        if N ∈ globals ∧ N ∉ imported then 1 else 0) ∧
    (∀ (st : GSt) (deps : List (List String)) (N : String),
      (∃ d ∈ deps, N ∈ d) →
      N ∉ export_global_names (deps.foldl add_dep_globals st).globals
        (deps.foldl add_dep_globals st).imported_globals) := by
  constructor
  · intro globals imported N hnd
    unfold export_global_names
    rw [count_filter_nodup globals _ N hnd]
    by_cases hm : N ∈ globals ∧ N ∉ imported
    · rw [if_pos ⟨hm.1, by simp [hm.2]⟩, if_pos hm]
    · rw [if_neg (fun hc => hm ⟨hc.1, by
        have := hc.2
        simp at this
        exact this⟩), if_neg hm]
  · intro st deps N hdep
    have himp := mem_imported_foldl deps st N (Or.inl hdep)
    unfold export_global_names
    intro hmem
    rw [List.mem_filter] at hmem
    have := hmem.2
    simp [himp] at this

/-- Witness for `C9_export_globals`: globals `{a, b}` with `b` imported
export exactly `a`; a global `g` exposed by two dependencies is not
re-declared in the footer. -/
theorem C9_export_globals_witness :
    ((export_global_names ["a", "b"] ["b"]).count "a" =
      if "a" ∈ ["a", "b"] ∧ "a" ∉ ["b"] then 1 else 0) ∧
    "g" ∉ export_global_names
      (([["g"], ["g"]] : List (List String)).foldl add_dep_globals
        ⟨[], [], []⟩).globals
      (([["g"], ["g"]] : List (List String)).foldl add_dep_globals
        ⟨[], [], []⟩).imported_globals :=
  ⟨C9_export_globals.1 ["a", "b"] ["b"] "a" (by decide),
   C9_export_globals.2 ⟨[], [], []⟩ [["g"], ["g"]] "g" (by decide)⟩
